import Mathlib

/-!
# Verification of the playback-queue engine of a Discord music bot

This file gives a shallow embedding, in Lean 4, of the core logic of the
repository's playback-queue engine, and proves (or refutes) the frozen
claims about it:

* `DownloadProgressManager.shouldUpdate` (progress-update throttling),
  from `src/download/ProgressManager.js`;
* the `AudioCache` (canonical key derivation, `set`/`get`/`has`, bounded
  LRU eviction), from `src/cache/AudioCache.js` (shipped inside
  `src/cache/SearchCache.js` in this snapshot);
* the per-guild queue state machine (`ensureNextTrackDownloadedAndPlay`,
  the `AudioPlayerStatus.Idle` handler's loop logic, the consecutive-error
  counter), from `src/queue/QueueManager.js`;
* the PCM pre-buffering pipeline (`playNextInGuild` / `startPlayback`),
  from the variant of `QueueManager.js` recorded in `QUICKSTART.md`.

JavaScript `number` timestamps are modelled as `Nat` (milliseconds),
progress percentages as `Rat` (the comparisons involved are exact at
these magnitudes), and byte buffers as `List Nat`.  The JavaScript
runtime is single-threaded with cooperative scheduling, so each
synchronous code segment between `await` suspension points is modelled
as one atomic Lean function; asynchronous continuations (fetch success /
failure, process events) are separate functions, and observable effects
(messages sent, fetches started, files unlinked, resources played) are
returned as explicit action lists.
-/

namespace Musicbot

/-! ## Progress throttling (`src/download/ProgressManager.js`)

`DownloadProgressManager` keeps `lastPercent` (initially `0`) and
`lastUpdate` (initially `0`); `UPDATE_INTERVAL` is 2500 ms.  The check
`!this.lastUpdate` is truthiness of the millisecond timestamp, i.e.
`lastUpdate = 0`, which holds exactly when no update has been accepted
yet (accepted updates record `Date.now() > 0`). -/

/-- State of `DownloadProgressManager`: `lastPercent`/`lastUpdate` as in
the constructor (both start at `0`, and `reset()` restores that). -/
structure ProgressState where
  lastPercent : Rat
  lastUpdate : Nat
deriving Repr, DecidableEq

/-- The constant `this.UPDATE_INTERVAL = 2500` (milliseconds). -/
def UPDATE_INTERVAL : Nat := 2500

/-- Shallow embedding of `DownloadProgressManager.shouldUpdate(percent)`:
computes `timeDiff = now - lastUpdate` and `percentDiff = percent -
lastPercent`, accepts iff `percent === 100 || (percentDiff >= 5 &&
timeDiff > UPDATE_INTERVAL) || !lastUpdate`, and on acceptance records
`lastPercent := percent`, `lastUpdate := now`.  Returns the boolean
together with the successor state. -/
def shouldUpdate (st : ProgressState) (now : Nat) (percent : Rat) :
    Bool × ProgressState :=
  if percent = 100 ∨
      (percent - st.lastPercent ≥ 5 ∧
        (now : Int) - (st.lastUpdate : Int) > (UPDATE_INTERVAL : Int)) ∨
      st.lastUpdate = 0 then
    (true, ⟨percent, now⟩)
  else
    (false, st)

/-! ## Media cache (`AudioCache` in `src/cache/AudioCache.js`)

The cache is a JavaScript `Map` from canonical keys to entries, kept in
insertion order (a `Map.set` on an existing key updates the value in
place without moving the binding; a new key is appended).  We model it
as an association list `List (String × CacheEntry)` whose well-formed
states have pairwise-distinct keys, and model the filesystem seen by
`fs.existsSync` as the list of existing paths.  The debounced index
persistence (`save()`/`load()`) only schedules disk writes and is not
needed by any claim, so it is not modelled.

`makeKeyFromUrl` delegates to WHATWG `new URL(url)`. We embed a parser
for the plain `scheme://host[:port][/path][?query]` shapes the cache
sees (no percent-escapes, userinfo or IPv6 brackets): parse failure
models the `new URL` throw that the function catches. -/

/-- Finds the first occurrence of `pat` inside `l` and returns the part
before it together with the part after it; `none` when `pat` does not
occur.  Drives both substring tests and scheme splitting. -/
def breakOnInfix (pat : List Char) : List Char → Option (List Char × List Char)
  | [] => if pat.isPrefixOf ([] : List Char) then some ([], []) else none
  | c :: rest =>
    if pat.isPrefixOf (c :: rest) then some ([], (c :: rest).drop pat.length)
    else (breakOnInfix pat rest).map (fun pr => (c :: pr.1, pr.2))

/-- JavaScript `String.prototype.includes`: `pat` occurs inside `l`. -/
def hasSubstr (pat l : List Char) : Bool := (breakOnInfix pat l).isSome

/-- JavaScript `String.prototype.split` with a single-character
separator: splits `l` at every occurrence of `c`, keeping empty
segments. -/
def splitOnChar (c : Char) : List Char → List (List Char)
  | [] => [[]]
  | x :: xs =>
    if x = c then [] :: splitOnChar c xs
    else
      match splitOnChar c xs with
      | [] => [[x]]
      | h :: t => (x :: h) :: t

/-- The components of a parsed WHATWG URL that `makeKeyFromUrl` reads:
`hostname` (lower-cased, port stripped), `pathname`, and the query
parameters in order. -/
structure JsUrl where
  hostname : List Char
  pathname : List Char
  searchParams : List (List Char × List Char)
deriving Repr, DecidableEq

/-- Splits one `key=value` query segment at its first `=`; a segment
without `=` gets an empty value. -/
def parseParam (kv : List Char) : List Char × List Char :=
  (kv.takeWhile (fun c => c ≠ '='), (kv.dropWhile (fun c => c ≠ '=')).drop 1)

/-- Parses a query string into its parameter list; empty segments are
skipped as `URLSearchParams` does. -/
def parseQuery (q : List Char) : List (List Char × List Char) :=
  ((splitOnChar '&' q).filter (fun s => ¬s.isEmpty)).map parseParam

/-- Embedding of `new URL(url)` restricted to the fields the cache key
derivation reads.  The input is cut at `://`; the authority runs to the
first `/` or `?`; the hostname drops a `:port` suffix and is
lower-cased; the path runs to the first `?`; the rest is the query.
`none` models the constructor throwing on inputs without a scheme
separator or without a host. -/
def parseUrl (url : String) : Option JsUrl :=
  match breakOnInfix "://".toList url.toList with
  | none => none
  | some (_, rest) =>
    let hostport := rest.takeWhile (fun c => c ≠ '/' ∧ c ≠ '?')
    let pathq := rest.dropWhile (fun c => c ≠ '/' ∧ c ≠ '?')
    let hostname := (hostport.takeWhile (fun c => c ≠ ':')).map Char.toLower
    let pathname := pathq.takeWhile (fun c => c ≠ '?')
    let query := (pathq.dropWhile (fun c => c ≠ '?')).drop 1
    if hostname.isEmpty then none
    else some ⟨hostname, pathname, parseQuery query⟩

/-- First binding of key `k` in a parameter list, as
`URLSearchParams.get` returns it (`has` is its `isSome`). -/
def lookupParam (k : List Char) : List (List Char × List Char) → Option (List Char)
  | [] => none
  | p :: ps => if p.1 = k then some p.2 else lookupParam k ps

/-- Shallow embedding of `AudioCache.makeKeyFromUrl(url)`: on a parsed
URL whose hostname contains `"youtu"`, the `v` query parameter wins;
otherwise, for a hostname containing `"youtu.be"`, the last nonempty
path segment; every other case (including a failed parse, caught by the
`try/catch`) falls back to the raw `url`. -/
def makeKeyFromUrl (url : String) : String :=
  match parseUrl url with
  | none => url
  | some u =>
    if hasSubstr "youtu".toList u.hostname then
      match lookupParam "v".toList u.searchParams with
      | some v => ⟨v⟩
      | none =>
        if hasSubstr "youtu.be".toList u.hostname then
          match ((splitOnChar '/' u.pathname).filter (fun s => ¬s.isEmpty)).getLast? with
          | some lastSeg => ⟨lastSeg⟩
          | none => url
        else url
    else url

/-- The metadata object stored with a cache entry (`{ title, duration }`
as passed from the queue manager). -/
structure CacheMeta where
  title : Option String
  duration : Option Nat
deriving Repr, DecidableEq

/-- One cache entry: `{ filepath, filename, ts, meta }` as written by
`AudioCache.set`. -/
structure CacheEntry where
  filepath : String
  filename : String
  ts : Nat
  meta : CacheMeta
deriving Repr, DecidableEq

/-- JavaScript `path.basename`: the substring after the last `/` (the
cache only stores it, never reads it back). -/
def basename (p : String) : String := ⟨((splitOnChar '/' p.toList).getLastD [])⟩

/-- In-memory state of an `AudioCache`: the configured `maxEntries`
bound and the index `Map` as an insertion-ordered association list. -/
structure AudioCache where
  maxEntries : Nat
  entries : List (String × CacheEntry)
deriving Repr, DecidableEq

/-- JavaScript `Map.prototype.set`: replace the first binding of `k` in
place, else append. -/
def jsMapSet (l : List (String × CacheEntry)) (k : String) (v : CacheEntry) :
    List (String × CacheEntry) :=
  match l with
  | [] => [(k, v)]
  | p :: ps => if p.1 = k then (k, v) :: ps else p :: jsMapSet ps k v

/-- JavaScript `Map.prototype.get` on the association list. -/
def jsMapGet (l : List (String × CacheEntry)) (k : String) : Option CacheEntry :=
  match l with
  | [] => none
  | p :: ps => if p.1 = k then some p.2 else jsMapGet ps k

/-- JavaScript `Map.prototype.delete`: a `Map` holds at most one binding
per key, so dropping every pair with key `k` is that one deletion. -/
def jsMapDelete (l : List (String × CacheEntry)) (k : String) :
    List (String × CacheEntry) :=
  l.filter (fun p => p.1 ≠ k)

/-- Comparator `(a, b) => a[1].ts - b[1].ts` of the eviction sort, as
the Boolean total preorder `a.ts ≤ b.ts` (JavaScript `Array.sort` is
stable, as is `List.mergeSort`). -/
def tsLe (a b : String × CacheEntry) : Bool := a.2.ts ≤ b.2.ts

/-- The eviction batch size `Math.ceil(this.maxEntries * 0.2)`, i.e.
`⌈maxEntries / 5⌉` (exact: IEEE `0.2 * n` rounds to a value whose
ceiling is `⌈n/5⌉` for every cache size in range). -/
def evictCount (maxEntries : Nat) : Nat := (maxEntries + 4) / 5

/-- A cache state is well formed when its index, like every JavaScript
`Map`, binds each key at most once. -/
def AudioCache.WF (c : AudioCache) : Prop := (c.entries.map Prod.fst).Nodup

/-- Shallow embedding of `AudioCache.set(url, filepath, meta)` at time
`now` (`Date.now()`): inserts/replaces the entry under the canonical
key; then, when the entry count exceeds `maxEntries`, sorts by `ts` and
deletes the first `Math.ceil(maxEntries * 0.2)` entries of the sorted
order from the index, issuing a best-effort `unlink` for each victim
with a nonempty (truthy) filepath.  Returns the new state together with
the list of paths whose deletion was attempted; the debounced `save()`
is not modelled. -/
def AudioCache.set (c : AudioCache) (now : Nat) (url filepath : String)
    (meta : CacheMeta) : AudioCache × List String :=
  let key := makeKeyFromUrl url
  let entries' := jsMapSet c.entries key ⟨filepath, basename filepath, now, meta⟩
  if entries'.length > c.maxEntries then
    let victims := (entries'.mergeSort tsLe).take (evictCount c.maxEntries)
    let entries'' := victims.foldl (fun acc p => jsMapDelete acc p.1) entries'
    (⟨c.maxEntries, entries''⟩,
      (victims.filter (fun p => ¬p.2.filepath.isEmpty)).map (fun p => p.2.filepath))
  else
    (⟨c.maxEntries, entries'⟩, [])

/-- Shallow embedding of `AudioCache.get(url)`: pure index lookup,
`?.filepath || null` (an empty-string filepath is falsy and yields
`null`).  No filesystem access, no mutation. -/
def AudioCache.get (c : AudioCache) (url : String) : Option String :=
  match jsMapGet c.entries (makeKeyFromUrl url) with
  | some e => if e.filepath.isEmpty then none else some e.filepath
  | none => none

/-- Shallow embedding of `AudioCache.has(url)` against filesystem state
`fsys` (the set of paths `fs.existsSync` reports): `false` on a missing
entry; on a present entry whose file vanished, deletes the entry
(self-healing) and returns `false`; otherwise `true`.  Returns the
possibly-pruned cache. -/
def AudioCache.has (c : AudioCache) (fsys : List String) (url : String) :
    Bool × AudioCache :=
  let key := makeKeyFromUrl url
  match jsMapGet c.entries key with
  | none => (false, c)
  | some e =>
    if e.filepath ∈ fsys then (true, c)
    else (false, ⟨c.maxEntries, jsMapDelete c.entries key⟩)

/-! ## Per-guild queue state machine (`src/queue/QueueManager.js`)

A guild's session is the object built by `createGuildQueue` plus the
fields set later (`isDownloading`, `currentTrack`, `nowPlayingMessage`).
The registry `guildQueues` is modelled for one guild as an
`Option GuildQueue` (`none` = not registered).  The voice player and
text channel are external: `playerPlaying` mirrors
`player.state.status === AudioPlayerStatus.Playing`, `hasChannel` the
truthiness of `lastInteractionChannel`, and every message send, fetch
start, and player call is recorded as an explicit `QAction`.

`ensureNextTrackDownloadedAndPlay` is `async`, and the JavaScript event
loop runs it atomically only up to its first `await`.  The function has
two suspension points before the fetch resolves: `await
fs.promises.access(next.filepath)` — reached when the head track has a
truthy `filepath`, and notably sitting *between* the `isDownloading`
check and the `isDownloading = true` assignment — and `await
downloadSingleTo(...)` itself.  The embedding therefore splits the
function into atomic segments: `advance` is the synchronous prefix up
to the first suspension and reports where it stopped via an
`AdvanceCont` marker; `resumeAccess` is the continuation that runs when
the access promise settles (it re-checks nothing — in particular not
the guard); `onFetchSuccess` and `onFetchFailure` are the `try` tail
and the `catch` block run when the fetch promise settles.  Interleaved
invocations are modelled by running these segments in any order the
event loop could schedule them. -/

/-- One queued track: the fields of the objects pushed into `q.songs`
that the queue manager reads. -/
structure Track where
  url : Option String
  title : Option String
  filepath : Option String
  duration : Option Nat
deriving Repr, DecidableEq

/-- The `loopMode` field: `'off'`, `'song'` or `'queue'`. -/
inductive LoopMode where
  | off
  | song
  | queue
deriving Repr, DecidableEq

/-- Per-guild session state (the object stored in `guildQueues`). -/
structure GuildQueue where
  songs : List Track
  volume : Nat
  shuffle : Bool
  loopMode : LoopMode
  isDownloading : Bool
  playerPlaying : Bool
  consecutiveErrors : Nat
  currentTrack : Option Track
  nowPlayingMessage : Bool
  hasChannel : Bool
deriving Repr, DecidableEq

/-- Observable effects of the queue manager: messages sent, external
calls made, timers armed.  Deregistration shows up as the successor
state being `none`. -/
inductive QAction where
  | destroyConnection
  | stopPlayer
  | notifyDownloading
  | fetch (url : String)
  | cacheWrite (url filepath : String)
  | notifyFatal
  | notifyDrop
  | scheduleRetry
  | playResource
  | sendNowPlayingEmbed
  | deleteNowPlayingMsg
  | invokeAdvance
deriving Repr, DecidableEq

/-- The outcome `fs.promises.access(next.filepath)` resolves to: the
recorded local asset path still names an existing file. -/
def Track.hasLocalAsset (t : Track) (fsys : List String) : Bool :=
  match t.filepath with
  | some fp => fp ∈ fsys
  | none => false

/-- JavaScript truthiness of `next.filepath` (line 83's `if
(next.filepath)`): present and nonempty. -/
def Track.filepathTruthy (t : Track) : Bool :=
  match t.filepath with
  | some fp => ¬fp.isEmpty
  | none => false

/-- Where a synchronous segment of `ensureNextTrackDownloadedAndPlay`
stopped: ran to completion, suspended at `await fs.promises.access` on
the captured head track, or suspended at `await downloadSingleTo` with
a fetch in flight. -/
inductive AdvanceCont where
  | done
  | awaitingAccess (next : Track)
  | awaitingFetch (url : String)
deriving Repr, DecidableEq

/-- Shallow embedding of `playNextInGuild(guildId)`: shift the head
track, record it as `currentTrack`, play the audio resource (after
which the player reports `Playing`), and send the now-playing embed
whose sent message is remembered for later deletion. -/
def playNextQ (q : GuildQueue) : Option GuildQueue × List QAction :=
  match q.songs with
  | [] => (some q, [])
  | track :: rest =>
    (some { q with
        songs := rest
        currentTrack := some track
        playerPlaying := true
        nowPlayingMessage := q.hasChannel },
     .playResource :: (if q.hasChannel then [.sendNowPlayingEmbed] else []))

/-- The body of `ensureNextTrackDownloadedAndPlay` as a loop over the
queue: the `q.songs.shift(); return await ensure…` self-call for an
entry with no `url` and no truthy `filepath` only re-enters the same
function with the head dropped and every other field unchanged, so it
is modelled as structural recursion over the song list.  A head with a
truthy `filepath` reaches `await fs.promises.access` — the segment ends
there, *before* the `isDownloading` guard has been set, and the state
is returned unchanged with an `awaitingAccess` marker.  A head with no
truthy `filepath` but a `url` runs lines 98–110 synchronously: notify,
set the guard, start the fetch. -/
def advanceLoop (q : GuildQueue) :
    List Track → Option GuildQueue × List QAction × AdvanceCont
  | [] => (none, [.destroyConnection], .done)
  | next :: rest =>
    if q.playerPlaying then (some { q with songs := next :: rest }, [], .done)
    else if q.isDownloading then (some { q with songs := next :: rest }, [], .done)
    else if next.filepathTruthy then
      (some { q with songs := next :: rest }, [], .awaitingAccess next)
    else
      match next.url with
      | none => advanceLoop q rest
      | some u =>
        (some { q with songs := next :: rest, isDownloading := true },
          (if q.hasChannel then [.notifyDownloading] else []) ++ [.fetch u],
          .awaitingFetch u)

/-- Shallow embedding of the synchronous prefix of one
`ensureNextTrackDownloadedAndPlay(guildId)` invocation: missing session
returns; an empty queue destroys the connection and deregisters;
otherwise the loop above runs until the invocation completes, suspends
at the access check of a head with a recorded local path, or suspends
at the fetch it started (having set `isDownloading := true` in the same
synchronous segment). -/
def advance : Option GuildQueue → Option GuildQueue × List QAction × AdvanceCont
  | none => (none, [], .done)
  | some q => advanceLoop q q.songs

/-- Shallow embedding of the continuation of
`ensureNextTrackDownloadedAndPlay` after `await
fs.promises.access(next.filepath)` settles (lines 85–110), for the
captured head track `next`: if the file exists, play it immediately; on
rejection the empty `catch {}` falls through — an entry with no `url`
is shifted off and the function re-entered (its synchronous prefix runs
now), while an entry with a `url` proceeds straight to notify,
`isDownloading := true` and the fetch, *without re-checking the
`isDownloading` guard it passed before suspending*. -/
def resumeAccess (fsys : List String) (next : Track) (q : GuildQueue) :
    Option GuildQueue × List QAction × AdvanceCont :=
  if next.hasLocalAsset fsys then
    let (s, as) := playNextQ q
    (s, as, .done)
  else
    match next.url with
    | none => advance (some { q with songs := q.songs.tail })
    | some u =>
      (some { q with isDownloading := true },
        (if q.hasChannel then [.notifyDownloading] else []) ++ [.fetch u],
        .awaitingFetch u)

/-- Shallow embedding of the `try` tail of
`ensureNextTrackDownloadedAndPlay` after `await downloadSingleTo`
resolves: write through to the audio cache, set the downloaded track's
`filepath`, clear the in-flight guard, and play.  `url` is the `next.url`
the closure captured; the head of `q.songs` is that same `next` object. -/
def onFetchSuccess (url filepath : String) (q : GuildQueue) :
    Option GuildQueue × List QAction :=
  let q1 : GuildQueue :=
    { q with
      songs := match q.songs with
               | next :: rest => { next with filepath := some filepath } :: rest
               | [] => [],
      isDownloading := false }
  let (s, as) := playNextQ q1
  (s, .cacheWrite url filepath :: as)

/-- Shallow embedding of the `catch` block of
`ensureNextTrackDownloadedAndPlay`: clear the guard, increment
`consecutiveErrors`; at 5 or more, send the fatal notice, stop the
player, destroy the connection and deregister; below 5, send the
per-track drop notice, shift off the failed head, and arm the 500 ms
re-advance timer. -/
def onFetchFailure (q : GuildQueue) : Option GuildQueue × List QAction :=
  let q1 : GuildQueue :=
    { q with isDownloading := false, consecutiveErrors := q.consecutiveErrors + 1 }
  if q1.consecutiveErrors ≥ 5 then
    (none, (if q1.hasChannel then [.notifyFatal] else []) ++ [.stopPlayer, .destroyConnection])
  else
    (some { q1 with songs := q1.songs.tail },
      (if q1.hasChannel then [.notifyDrop] else []) ++ [.scheduleRetry])

/-- One complete failed resolve: run `advance`; if it suspended at the
access check, let that promise settle against `fsys` and run
`resumeAccess`; when a fetch was left in flight, it rejects and the
`catch` continuation runs.  The returned actions are the concatenation
of all executed segments' effects. -/
def failRound (fsys : List String) (s : Option GuildQueue) :
    Option GuildQueue × List QAction :=
  match advance s with
  | (some q1, a1, AdvanceCont.awaitingFetch _) =>
    let (s2, a2) := onFetchFailure q1
    (s2, a1 ++ a2)
  | (some q1, a1, AdvanceCont.awaitingAccess next) =>
    match resumeAccess fsys next q1 with
    | (some q2, a2, AdvanceCont.awaitingFetch _) =>
      let (s3, a3) := onFetchFailure q2
      (s3, a1 ++ a2 ++ a3)
    | (s2, a2, _) => (s2, a1 ++ a2)
  | (s1, a1, _) => (s1, a1)

/-- Shallow embedding of the `AudioPlayerStatus.Idle` handler installed
by `createPlayerForGuild`: the player has just left the `Playing` state;
the live now-playing message (if any) is deleted and forgotten; with a
`currentTrack` present, `loopMode === 'song'` unshifts it back onto the
queue head and `'queue'` pushes it onto the tail (`'off'` reinserts
nowhere); finally `ensureNextTrackDownloadedAndPlay` is invoked. -/
def onPlayerIdle (s : Option GuildQueue) : Option GuildQueue × List QAction :=
  match s with
  | none => (none, [.invokeAdvance])
  | some q =>
    let q1 : GuildQueue := { q with playerPlaying := false, nowPlayingMessage := false }
    let q2 : GuildQueue :=
      match q1.currentTrack with
      | some t =>
        match q1.loopMode with
        | .song => { q1 with songs := t :: q1.songs }
        | .queue => { q1 with songs := q1.songs ++ [t] }
        | .off => q1
      | none => q1
    (some q2,
      (if q.nowPlayingMessage then [.deleteNowPlayingMsg] else []) ++ [.invokeAdvance])

/-- The download URLs among a list of recorded actions. -/
def fetchedUrls (as : List QAction) : List String :=
  as.filterMap (fun a => match a with | .fetch u => some u | _ => none)

/-! ## PCM pre-buffering pipeline (`playNextInGuild` / `startPlayback`
in the `QueueManager.js` variant recorded in `QUICKSTART.md`)

Per track, an ffmpeg decode process is spawned and its stdout `data`
events, `close` event and spawn `error` event drive the state below.
The JavaScript event loop delivers these events sequentially, so a
pipeline execution is a fold over an event list.  Chunks are byte lists;
`Buffer.concat` is `List.flatten`. `PAction.play` records the submission
of the concatenated resource to the voice sink (with inline volume set
to the session volume), `PAction.renderNowPlaying` the now-playing UI
render, and `PAction.skipToNext` the `playNextInGuild` call that skips
to the next track on a hard decode failure. -/

/-- Pipeline events: an stdout chunk, process exit with a code, or a
spawn error. -/
inductive PEvent where
  | data (chunk : List Nat)
  | closed (code : Int)
  | errored
deriving Repr, DecidableEq

/-- The closure state of one `playNextInGuild` invocation: the
accumulated `chunks`, the running `bufferedBytes` count, and the
`isPlaying` latch. -/
structure PipeState where
  chunks : List (List Nat)
  bufferedBytes : Nat
  isPlaying : Bool
deriving Repr, DecidableEq

/-- Observable pipeline effects. -/
inductive PAction where
  | play (pcm : List Nat)
  | renderNowPlaying
  | skipToNext
deriving Repr, DecidableEq

/-- `MAX_PREBUFFER = 150 * 1024 * 1024` bytes. -/
def MAX_PREBUFFER : Nat := 150 * 1024 * 1024

/-- Shallow embedding of the `startPlayback` closure: bail out when
already playing or nothing is buffered; otherwise latch `isPlaying`,
concatenate the chunks into one resource, submit it to the voice sink,
and only then render the now-playing UI. -/
def startPlayback (st : PipeState) : PipeState × List PAction :=
  if st.isPlaying ∨ st.chunks = [] then (st, [])
  else ({ st with isPlaying := true }, [.play st.chunks.flatten, .renderNowPlaying])

/-- One pipeline event: `data` appends the chunk, counts its bytes and
starts playback early past the byte cap; `close` with a nonzero code
and nothing buffered skips to the next track, any other `close` starts
playback; a spawn `error` skips to the next track. -/
def pipeStep (st : PipeState) : PEvent → PipeState × List PAction
  | .data c =>
    let st1 : PipeState :=
      { st with chunks := st.chunks ++ [c], bufferedBytes := st.bufferedBytes + c.length }
    if st1.bufferedBytes > MAX_PREBUFFER then startPlayback st1 else (st1, [])
  | .closed code =>
    if code ≠ 0 ∧ st.chunks = [] then (st, [.skipToNext])
    else startPlayback st
  | .errored => (st, [.skipToNext])

/-- Folds a list of pipeline events from a state, concatenating the
recorded actions in delivery order. -/
def pipeRun (st : PipeState) : List PEvent → PipeState × List PAction
  | [] => (st, [])
  | e :: es =>
    let (st1, a1) := pipeStep st e
    let (st2, a2) := pipeRun st1 es
    (st2, a1 ++ a2)

/-- The state at the start of a `playNextInGuild` invocation: no chunks,
zero bytes, not playing. -/
def initPipe : PipeState := ⟨[], 0, false⟩

/-- Number of voice-sink submissions among recorded actions. -/
def countPlays (as : List PAction) : Nat :=
  (as.filter (fun a => match a with | .play _ => true | _ => false)).length

/-- Number of now-playing UI renders among recorded actions. -/
def countRenders (as : List PAction) : Nat :=
  (as.filter (fun a => match a with | .renderNowPlaying => true | _ => false)).length

/-- Remaining permitted voice-sink submissions: one before the
`isPlaying` latch is set, none afterwards. -/
def playBudget (st : PipeState) : Nat := if st.isPlaying then 0 else 1

/-- Every prefix of the action list shows at least as many voice-sink
submissions as now-playing renders: the indicator is never rendered
before the resource is submitted. -/
def NoRenderBeforePlay (as : List PAction) : Prop :=
  ∀ pre, pre <+: as → countRenders pre ≤ countPlays pre

/-! ## Theorems -/

/-- C7, counterexample: the claim accepts a report when "at least the
configured interval T has elapsed", but at `timeDiff` exactly equal to
`UPDATE_INTERVAL` (state: last accepted percent 0 at 1000 ms; report:
percent 10 at 3500 ms, so the percent advanced by 10 ≥ 5 and exactly
2500 ms ≥ 2500 ms elapsed) `shouldUpdate` rejects, because the code
requires `timeDiff > UPDATE_INTERVAL` strictly. -/
theorem C7_counterexample :
    (10 : Rat) ≠ 100 ∧ (1000 : Nat) ≠ 0 ∧ (10 : Rat) - 0 ≥ 5 ∧
    (3500 : Int) - (1000 : Int) ≥ (UPDATE_INTERVAL : Int) ∧
    (shouldUpdate ⟨0, 1000⟩ 3500 10).1 = false := by
  norm_num [shouldUpdate, UPDATE_INTERVAL]

/-- C7 (amended: "strictly more than the configured interval T elapsed"
in place of "at least T elapsed"): a report is accepted iff its percent
is 100, or no update has been accepted yet (`lastUpdate = 0`), or the
percent advanced at least 5 over the last accepted percent and strictly
more than `UPDATE_INTERVAL` ms elapsed since the last accepted update;
a 100% report is always accepted; and any other accepted non-first
update advances the recorded percent by at least 5, which bounds the
number of acceptances of a monotone percent sequence. -/
theorem C7_progress_gating (st : ProgressState) (now : Nat) (p : Rat) :
    ((shouldUpdate st now p).1 = true ↔
      (p = 100 ∨ st.lastUpdate = 0 ∨
        (p - st.lastPercent ≥ 5 ∧
          (now : Int) - (st.lastUpdate : Int) > (UPDATE_INTERVAL : Int)))) ∧
    (shouldUpdate st now 100).1 = true ∧
    ((shouldUpdate st now p).1 = true → p ≠ 100 → st.lastUpdate ≠ 0 →
      (shouldUpdate st now p).2.lastPercent ≥ st.lastPercent + 5) := by
  refine ⟨?_, ?_, ?_⟩
  · unfold shouldUpdate
    split
    · simp only [true_iff]
      tauto
    · simp only [Bool.false_eq_true, false_iff]
      tauto
  · unfold shouldUpdate
    split
    · rfl
    · tauto
  · intro h h2 h3
    unfold shouldUpdate at *
    split at h
    · rename_i hc
      rcases hc with hc | ⟨hc1, hc2⟩ | hc
      · exact absurd hc h2
      · split
        · simp only
          linarith
        · simp_all
      · exact absurd hc h3
    · simp at h

/-- C7, witness: at state (last percent 10, last update at 1000 ms) a
report of percent 20 at 4000 ms (advance 10 ≥ 5, elapsed 3000 > 2500)
is accepted and moves the recorded percent up by at least 5. -/
theorem C7_witness :
    (shouldUpdate ⟨10, 1000⟩ 4000 20).1 = true ∧
    (shouldUpdate ⟨10, 1000⟩ 4000 20).2.lastPercent ≥ 10 + 5 := by
  have h := C7_progress_gating ⟨10, 1000⟩ 4000 20
  have hacc : (shouldUpdate ⟨10, 1000⟩ 4000 20).1 = true :=
    h.1.mpr (Or.inr (Or.inr (by norm_num [UPDATE_INTERVAL])))
  exact ⟨hacc, h.2.2 hacc (by norm_num) (by decide)⟩

/-- C6: when the player goes idle with a current track, loop mode
`song` reinserts that track at the queue head, `queue` appends it at the
tail, and `off` reinserts it nowhere (the queue is unchanged); in every
case the advancement routine is invoked. -/
theorem C6_loop_semantics (q : GuildQueue) (t : Track)
    (h : q.currentTrack = some t) :
    (q.loopMode = LoopMode.song →
      (onPlayerIdle (some q)).1 =
        some { q with playerPlaying := false, nowPlayingMessage := false,
                      songs := t :: q.songs }) ∧
    (q.loopMode = LoopMode.queue →
      (onPlayerIdle (some q)).1 =
        some { q with playerPlaying := false, nowPlayingMessage := false,
                      songs := q.songs ++ [t] }) ∧
    (q.loopMode = LoopMode.off →
      (onPlayerIdle (some q)).1 =
        some { q with playerPlaying := false, nowPlayingMessage := false }) ∧
    QAction.invokeAdvance ∈ (onPlayerIdle (some q)).2 := by
  refine ⟨fun hm => ?_, fun hm => ?_, fun hm => ?_, ?_⟩
  · simp [onPlayerIdle, h, hm]
  · simp [onPlayerIdle, h, hm]
  · simp [onPlayerIdle, h, hm]
  · simp [onPlayerIdle]

/-- C6, witness: a session in each loop mode, with current track `t`,
behaves as stated on player idle. -/
theorem C6_witness :
    (onPlayerIdle (some ⟨[], 50, false, LoopMode.song, false, true, 0,
        some ⟨some "u", none, none, none⟩, true, true⟩)).1 =
      some ⟨[⟨some "u", none, none, none⟩], 50, false, LoopMode.song, false, false, 0,
        some ⟨some "u", none, none, none⟩, false, true⟩ ∧
    (onPlayerIdle (some ⟨[], 50, false, LoopMode.queue, false, true, 0,
        some ⟨some "u", none, none, none⟩, true, true⟩)).1 =
      some ⟨[⟨some "u", none, none, none⟩], 50, false, LoopMode.queue, false, false, 0,
        some ⟨some "u", none, none, none⟩, false, true⟩ ∧
    (onPlayerIdle (some ⟨[], 50, false, LoopMode.off, false, true, 0,
        some ⟨some "u", none, none, none⟩, true, true⟩)).1 =
      some ⟨[], 50, false, LoopMode.off, false, false, 0,
        some ⟨some "u", none, none, none⟩, false, true⟩ := by
  refine ⟨?_, ?_, ?_⟩
  · exact (C6_loop_semantics _ _ rfl).1 rfl
  · exact (C6_loop_semantics _ _ rfl).2.1 rfl
  · exact (C6_loop_semantics _ _ rfl).2.2.1 rfl

/-- C1 (`code_bug` evidence): the in-flight guard is *not* checked and
set without an intervening suspension point.  With two tracks enqueued
whose head carries a recorded local path (a cache hit) whose file has
since been deleted, both of two back-to-back invocations run their
synchronous prefixes to the `await fs.promises.access` — past the
`isDownloading` check, which is still `false`, and before the
assignment — and suspend, leaving the state untouched.  When the two
access promises then reject, each resumption falls through to the
download path without re-checking the guard, and `downloadSingleTo` is
called twice for the same head track: two fetches in flight for one
session, where the claim (and §5/§9 of the spec) demand exactly one. -/
theorem C1_double_fetch (u1 u2 : String) :
    advance (some ⟨[⟨some u1, none, some "/tmp/stale.m4a", none⟩,
        ⟨some u2, none, none, none⟩], 50, false, LoopMode.off,
        false, false, 0, none, false, true⟩) =
      (some ⟨[⟨some u1, none, some "/tmp/stale.m4a", none⟩,
          ⟨some u2, none, none, none⟩], 50, false, LoopMode.off,
          false, false, 0, none, false, true⟩,
        [], AdvanceCont.awaitingAccess ⟨some u1, none, some "/tmp/stale.m4a", none⟩) ∧
    resumeAccess [] ⟨some u1, none, some "/tmp/stale.m4a", none⟩
        ⟨[⟨some u1, none, some "/tmp/stale.m4a", none⟩,
          ⟨some u2, none, none, none⟩], 50, false, LoopMode.off,
          false, false, 0, none, false, true⟩ =
      (some ⟨[⟨some u1, none, some "/tmp/stale.m4a", none⟩,
          ⟨some u2, none, none, none⟩], 50, false, LoopMode.off,
          true, false, 0, none, false, true⟩,
        [QAction.notifyDownloading, QAction.fetch u1], AdvanceCont.awaitingFetch u1) ∧
    resumeAccess [] ⟨some u1, none, some "/tmp/stale.m4a", none⟩
        ⟨[⟨some u1, none, some "/tmp/stale.m4a", none⟩,
          ⟨some u2, none, none, none⟩], 50, false, LoopMode.off,
          true, false, 0, none, false, true⟩ =
      (some ⟨[⟨some u1, none, some "/tmp/stale.m4a", none⟩,
          ⟨some u2, none, none, none⟩], 50, false, LoopMode.off,
          true, false, 0, none, false, true⟩,
        [QAction.notifyDownloading, QAction.fetch u1], AdvanceCont.awaitingFetch u1) ∧
    fetchedUrls
        ((resumeAccess [] ⟨some u1, none, some "/tmp/stale.m4a", none⟩
          ⟨[⟨some u1, none, some "/tmp/stale.m4a", none⟩,
            ⟨some u2, none, none, none⟩], 50, false, LoopMode.off,
            false, false, 0, none, false, true⟩).2.1 ++
        (resumeAccess [] ⟨some u1, none, some "/tmp/stale.m4a", none⟩
          ⟨[⟨some u1, none, some "/tmp/stale.m4a", none⟩,
            ⟨some u2, none, none, none⟩], 50, false, LoopMode.off,
            true, false, 0, none, false, true⟩).2.1) = [u1, u1] :=
  ⟨rfl, rfl, rfl, rfl⟩

/-- C2: starting from a session with a zeroed failure counter and five
pending tracks, each of the first four resolve failures sends only the
per-track drop notice, removes the failed head (the next round fetches
the next URL), arms the delayed re-advance, and leaves the session
registered; the fifth consecutive failure sends the distinct fatal
notice, stops the player, destroys the connection, and deregisters the
session. -/
theorem C2_failure_threshold (u1 u2 u3 u4 u5 : String) :
    let t : String → Track := fun u => ⟨some u, none, none, none⟩
    let q0 : GuildQueue := ⟨[t u1, t u2, t u3, t u4, t u5], 50, false, LoopMode.off,
      false, false, 0, none, false, true⟩
    let r1 := failRound [] (some q0)
    let r2 := failRound [] r1.1
    let r3 := failRound [] r2.1
    let r4 := failRound [] r3.1
    let r5 := failRound [] r4.1
    r1.2 = [.notifyDownloading, .fetch u1, .notifyDrop, .scheduleRetry] ∧
    r2.2 = [.notifyDownloading, .fetch u2, .notifyDrop, .scheduleRetry] ∧
    r3.2 = [.notifyDownloading, .fetch u3, .notifyDrop, .scheduleRetry] ∧
    r4.2 = [.notifyDownloading, .fetch u4, .notifyDrop, .scheduleRetry] ∧
    r1.1.isSome ∧ r2.1.isSome ∧ r3.1.isSome ∧ r4.1.isSome ∧
    r5.2 = [.notifyDownloading, .fetch u5, .notifyFatal, .stopPlayer,
      .destroyConnection] ∧
    r5.1 = none := by
  refine ⟨rfl, rfl, rfl, rfl, rfl, rfl, rfl, rfl, rfl, rfl⟩

/-- C3 (`code_bug` evidence): the success continuation of
`ensureNextTrackDownloadedAndPlay` never resets `consecutiveErrors` —
after a successful resolve and hand-off to playback of a session that
had 3 accumulated failures, the counter still reads 3, not the 0 the
spec's invariant requires (the code's own fatal notice claims to count
errors "hintereinander", i.e. consecutively). -/
theorem C3_no_reset_on_success :
    (onFetchSuccess "https://a.example/1" "/tmp/muse_downloads/s.m4a"
        ⟨[⟨some "https://a.example/1", none, none, none⟩], 50, false, LoopMode.off,
          true, false, 3, none, false, true⟩).1 =
      some ⟨[], 50, false, LoopMode.off, false, true, 3,
        some ⟨some "https://a.example/1", none, some "/tmp/muse_downloads/s.m4a", none⟩,
        true, true⟩ ∧
    ∀ q', (onFetchSuccess "https://a.example/1" "/tmp/muse_downloads/s.m4a"
        ⟨[⟨some "https://a.example/1", none, none, none⟩], 50, false, LoopMode.off,
          true, false, 3, none, false, true⟩).1 = some q' →
      q'.consecutiveErrors ≠ 0 := by
  refine ⟨rfl, ?_⟩
  intro q' h
  have : q' = ⟨[], 50, false, LoopMode.off, false, true, 3,
      some ⟨some "https://a.example/1", none, some "/tmp/muse_downloads/s.m4a", none⟩,
      true, true⟩ := by
    have h0 : (onFetchSuccess "https://a.example/1" "/tmp/muse_downloads/s.m4a"
        ⟨[⟨some "https://a.example/1", none, none, none⟩], 50, false, LoopMode.off,
          true, false, 3, none, false, true⟩).1 =
      some (⟨[], 50, false, LoopMode.off, false, true, 3,
        some ⟨some "https://a.example/1", none, some "/tmp/muse_downloads/s.m4a", none⟩,
        true, true⟩ : GuildQueue) := rfl
    rw [h0] at h
    exact (Option.some_injective _ h).symm
  rw [this]
  decide

/-- Filter counting distributes over action concatenation (plays). -/
theorem countPlays_append (a b : List PAction) :
    countPlays (a ++ b) = countPlays a + countPlays b := by
  simp [countPlays, List.filter_append]

/-- Filter counting distributes over action concatenation (renders). -/
theorem countRenders_append (a b : List PAction) :
    countRenders (a ++ b) = countRenders a + countRenders b := by
  simp [countRenders, List.filter_append]

/-- One `startPlayback` call spends at most the remaining play budget. -/
theorem startPlayback_budget (st : PipeState) :
    countPlays (startPlayback st).2 + playBudget (startPlayback st).1 ≤ playBudget st := by
  unfold startPlayback playBudget
  split
  · rename_i h
    split <;> simp_all [countPlays]
  · rename_i h
    push_neg at h
    simp [h.1, countPlays]

/-- One pipeline event spends at most the remaining play budget. -/
theorem pipeStep_budget (st : PipeState) (e : PEvent) :
    countPlays (pipeStep st e).2 + playBudget (pipeStep st e).1 ≤ playBudget st := by
  cases e with
  | data c =>
    simp only [pipeStep]
    split
    · exact startPlayback_budget _
    · simp [countPlays, playBudget]
  | closed code =>
    simp only [pipeStep]
    split
    · simp [countPlays, playBudget]
    · exact startPlayback_budget st
  | errored =>
    simp [pipeStep, countPlays, playBudget]

/-- A whole event sequence spends at most the starting play budget. -/
theorem pipeRun_budget (es : List PEvent) (st : PipeState) :
    countPlays (pipeRun st es).2 + playBudget (pipeRun st es).1 ≤ playBudget st := by
  induction es generalizing st with
  | nil => simp [pipeRun, countPlays]
  | cons e es ih =>
    have h1 := pipeStep_budget st e
    have h2 := ih (pipeStep st e).1
    simp only [pipeRun, countPlays_append]
    omega

/-- `NoRenderBeforePlay` is closed under trace concatenation. -/
theorem nrbp_append {a b : List PAction}
    (ha : NoRenderBeforePlay a) (hb : NoRenderBeforePlay b) :
    NoRenderBeforePlay (a ++ b) := by
  intro pre hpre
  rcases hpre with ⟨t, ht⟩
  rcases List.append_eq_append_iff.mp ht with ⟨r, hr1, hr2⟩ | ⟨r, hr1, hr2⟩
  · exact ha pre ⟨r, hr1.symm⟩
  · subst hr1
    have h1 : countRenders a ≤ countPlays a := ha a (List.prefix_refl a)
    have h2 : countRenders r ≤ countPlays r := hb r ⟨t, hr2.symm⟩
    rw [countRenders_append, countPlays_append]
    omega

/-- The empty trace renders nothing. -/
theorem nrbp_nil : NoRenderBeforePlay [] := by
  intro pre hpre
  simp [List.prefix_nil.mp hpre, countRenders, countPlays]

/-- A lone skip action renders nothing. -/
theorem nrbp_skip : NoRenderBeforePlay [.skipToNext] := by
  intro pre hpre
  rcases List.prefix_cons_iff.mp hpre with h | ⟨t, ht, htp⟩
  · simp [h, countRenders, countPlays]
  · simp [List.prefix_nil.mp htp] at ht
    simp [ht, countRenders, countPlays]

/-- A submission followed by its render keeps renders behind plays in
every prefix. -/
theorem nrbp_play_render (x : List Nat) :
    NoRenderBeforePlay [.play x, .renderNowPlaying] := by
  intro pre hpre
  rcases List.prefix_cons_iff.mp hpre with h | ⟨t, ht, htp⟩
  · simp [h, countRenders, countPlays]
  · rcases List.prefix_cons_iff.mp htp with h2 | ⟨t2, ht2, htp2⟩
    · simp [ht, h2, countRenders, countPlays]
    · simp [List.prefix_nil.mp htp2] at ht2
      simp [ht, ht2, countRenders, countPlays]

/-- `startPlayback` emits either nothing or a play-then-render pair. -/
theorem nrbp_startPlayback (st : PipeState) :
    NoRenderBeforePlay (startPlayback st).2 := by
  unfold startPlayback
  split
  · exact nrbp_nil
  · exact nrbp_play_render _

/-- Every single pipeline event emits a well-ordered action list. -/
theorem nrbp_step (st : PipeState) (e : PEvent) :
    NoRenderBeforePlay (pipeStep st e).2 := by
  cases e with
  | data c =>
    simp only [pipeStep]
    split
    · exact nrbp_startPlayback _
    · exact nrbp_nil
  | closed code =>
    simp only [pipeStep]
    split
    · exact nrbp_skip
    · exact nrbp_startPlayback _
  | errored => exact nrbp_skip

/-- Every pipeline execution emits a well-ordered action trace. -/
theorem nrbp_run (es : List PEvent) (st : PipeState) :
    NoRenderBeforePlay (pipeRun st es).2 := by
  induction es generalizing st with
  | nil => exact nrbp_nil
  | cons e es ih =>
    simp only [pipeRun]
    exact nrbp_append (nrbp_step st e) (ih (pipeStep st e).1)

/-- C9: for every sequence of decode-process events, the concatenated
audio resource is submitted to the voice sink at most once, even when
both the byte-cap trigger and the completion trigger fire; in every
prefix of the observable trace the now-playing render count never
exceeds the submission count (the indicator appears only after
submission); and a chunk that pushes the buffered byte count past
`MAX_PREBUFFER` before completion starts playback from exactly the
chunks buffered so far. -/
theorem C9_play_once_and_ordering :
    (∀ es : List PEvent, countPlays (pipeRun initPipe es).2 ≤ 1) ∧
    (∀ es : List PEvent, ∀ pre, pre <+: (pipeRun initPipe es).2 →
      countRenders pre ≤ countPlays pre) ∧
    (∀ (st : PipeState) (c : List Nat), st.isPlaying = false →
      st.bufferedBytes + c.length > MAX_PREBUFFER →
      (pipeStep st (.data c)).2 =
        [.play (st.chunks ++ [c]).flatten, .renderNowPlaying]) := by
  refine ⟨?_, ?_, ?_⟩
  · intro es
    have h := pipeRun_budget es initPipe
    have h0 : playBudget initPipe = 1 := rfl
    omega
  · intro es
    exact nrbp_run es initPipe
  · intro st c h1 h2
    simp only [pipeStep, startPlayback]
    rw [if_pos (by simpa using h2)]
    simp [h1]

/-- C9, witness: a cap-crossing chunk on a non-playing state with one
buffered chunk plays exactly the two buffered chunks; a small trace that
fires both the cap and the close trigger still plays at most once; and
its play-prefix is well ordered. -/
theorem C9_witness :
    countPlays (pipeRun initPipe [.data [1], .closed 0, .closed 0]).2 ≤ 1 ∧
    countRenders [PAction.play [1]] ≤ countPlays [PAction.play [1]] ∧
    (pipeStep ⟨[[1]], MAX_PREBUFFER, false⟩ (.data [2])).2 =
      [.play [1, 2], .renderNowPlaying] := by
  refine ⟨C9_play_once_and_ordering.1 _, ?_, ?_⟩
  · exact C9_play_once_and_ordering.2.1 [.data [1], .closed 0] [PAction.play [1]]
      ⟨[PAction.renderNowPlaying], by decide⟩
  · have h := C9_play_once_and_ordering.2.2 ⟨[[1]], MAX_PREBUFFER, false⟩ [2]
      rfl (by decide)
    simpa using h

/-- Looking up the key just set returns the new entry (in-place replace
and append both land on the first binding of the key). -/
theorem jsMapGet_set_self (l : List (String × CacheEntry)) (k : String) (v : CacheEntry) :
    jsMapGet (jsMapSet l k v) k = some v := by
  induction l with
  | nil => simp [jsMapSet, jsMapGet]
  | cons p ps ih =>
    by_cases h : p.1 = k
    · simp [jsMapSet, jsMapGet, h]
    · simp [jsMapSet, jsMapGet, h, ih]

/-- Setting an absent key appends the binding, as a JavaScript `Map`
does. -/
theorem jsMapSet_of_not_mem (l : List (String × CacheEntry)) (k : String) (v : CacheEntry)
    (h : k ∉ l.map Prod.fst) : jsMapSet l k v = l ++ [(k, v)] := by
  induction l with
  | nil => simp [jsMapSet]
  | cons p ps ih =>
    simp only [List.map_cons, List.mem_cons, not_or] at h
    have hne : ¬p.1 = k := fun hh => h.1 hh.symm
    simp [jsMapSet, hne, ih h.2]

/-- Setting a present key keeps the key sequence unchanged (in-place
value replacement). -/
theorem jsMapSet_keys_of_mem (l : List (String × CacheEntry)) (k : String) (v : CacheEntry)
    (h : k ∈ l.map Prod.fst) : (jsMapSet l k v).map Prod.fst = l.map Prod.fst := by
  induction l with
  | nil => simp at h
  | cons p ps ih =>
    by_cases hp : p.1 = k
    · simp [jsMapSet, hp]
    · simp only [List.map_cons, List.mem_cons] at h
      rcases h with h | h
      · exact absurd h.symm hp
      · simp [jsMapSet, hp, ih h]

/-- Setting a present key keeps the entry count unchanged. -/
theorem jsMapSet_length_of_mem (l : List (String × CacheEntry)) (k : String) (v : CacheEntry)
    (h : k ∈ l.map Prod.fst) : (jsMapSet l k v).length = l.length := by
  have hkeys := jsMapSet_keys_of_mem l k v h
  have h2 : ((jsMapSet l k v).map Prod.fst).length = (l.map Prod.fst).length := by rw [hkeys]
  simpa using h2

/-- A set grows the entry count by at most one. -/
theorem jsMapSet_length_le (l : List (String × CacheEntry)) (k : String) (v : CacheEntry) :
    (jsMapSet l k v).length ≤ l.length + 1 := by
  induction l with
  | nil => simp [jsMapSet]
  | cons p ps ih =>
    by_cases h : p.1 = k
    · simp [jsMapSet, h]
    · simp only [jsMapSet, if_neg h, List.length_cons]
      omega

/-- `Map.set` preserves well-formedness (uniqueness of keys). -/
theorem jsMapSet_keys_nodup (l : List (String × CacheEntry)) (k : String) (v : CacheEntry)
    (h : (l.map Prod.fst).Nodup) : ((jsMapSet l k v).map Prod.fst).Nodup := by
  by_cases hk : k ∈ l.map Prod.fst
  · rw [jsMapSet_keys_of_mem l k v hk]
    exact h
  · rw [jsMapSet_of_not_mem l k v hk]
    simp [List.nodup_append, h, hk]

/-- A lookup misses exactly when the key is absent. -/
theorem jsMapGet_none_iff (l : List (String × CacheEntry)) (k : String) :
    jsMapGet l k = none ↔ k ∉ l.map Prod.fst := by
  induction l with
  | nil => simp [jsMapGet]
  | cons p ps ih =>
    by_cases h : p.1 = k
    · simp [jsMapGet, h]
    · simp only [jsMapGet, if_neg h, ih, List.map_cons, List.mem_cons, not_or]
      exact ⟨fun h2 => ⟨fun hh => h hh.symm, h2⟩, fun h2 => h2.2⟩

/-- In a well-formed map a lookup returns the value of any binding the
list holds for the key. -/
theorem jsMapGet_some_of_mem (l : List (String × CacheEntry)) (k : String) (v : CacheEntry)
    (hnd : (l.map Prod.fst).Nodup) (hmem : (k, v) ∈ l) : jsMapGet l k = some v := by
  induction l with
  | nil => simp at hmem
  | cons p ps ih =>
    simp only [List.map_cons, List.nodup_cons] at hnd
    rcases List.mem_cons.mp hmem with h | h
    · simp [jsMapGet, ← h]
    · by_cases hp : p.1 = k
      · exfalso
        exact hnd.1 (hp ▸ (List.mem_map.mpr ⟨(k, v), h, rfl⟩))
      · simp [jsMapGet, hp, ih hnd.2 h]

/-- In a well-formed map two bindings of the same key coincide. -/
theorem mem_unique_of_nodup_keys (l : List (String × CacheEntry)) (k : String)
    (v : CacheEntry) (p : String × CacheEntry)
    (hnd : (l.map Prod.fst).Nodup) (h1 : (k, v) ∈ l) (h2 : p ∈ l) (hk : p.1 = k) :
    p = (k, v) := by
  have ha := jsMapGet_some_of_mem l k v hnd h1
  have hb := jsMapGet_some_of_mem l p.1 p.2 hnd h2
  rw [hk, ha] at hb
  have hv : v = p.2 := by injection hb
  cases p
  simp_all

/-- The eviction loop's repeated `Map.delete` is one filter over the
victims' keys. -/
theorem foldl_jsMapDelete (vs : List (String × CacheEntry)) (l : List (String × CacheEntry)) :
    vs.foldl (fun acc p => jsMapDelete acc p.1) l =
      l.filter (fun q => q.1 ∉ vs.map Prod.fst) := by
  induction vs generalizing l with
  | nil => simp
  | cons v vs ih =>
    rw [List.foldl_cons, ih]
    unfold jsMapDelete
    rw [List.filter_filter]
    congr 1
    funext q
    by_cases h1 : q.1 = v.1 <;> by_cases h2 : q.1 ∈ vs.map Prod.fst <;>
      simp [h1, h2]

/-- After deleting a key, looking it up misses. -/
theorem jsMapGet_delete_self (l : List (String × CacheEntry)) (k : String) :
    jsMapGet (jsMapDelete l k) k = none := by
  rw [jsMapGet_none_iff]
  intro h
  rcases List.mem_map.mp h with ⟨p, hp, hk⟩
  rcases List.mem_filter.mp hp with ⟨_, hne⟩
  simp [hk] at hne

/-- A filter that kills the first `n` sorted entries and keeps the rest
computes the drop. -/
theorem filter_take_drop (s : List (String × CacheEntry)) (n : Nat)
    (P : String × CacheEntry → Bool)
    (h1 : (s.take n).filter P = []) (h2 : (s.drop n).filter P = s.drop n) :
    s.filter P = s.drop n := by
  conv_lhs => rw [← List.take_append_drop n s]
  rw [List.filter_append, h1, h2, List.nil_append]

/-- The timestamp comparator is transitive. -/
theorem tsLe_trans (a b c : String × CacheEntry) :
    tsLe a b → tsLe b c → tsLe a c := by
  simp only [tsLe, decide_eq_true_eq]
  omega

/-- The timestamp comparator is total. -/
theorem tsLe_total (a b : String × CacheEntry) : tsLe a b || tsLe b a := by
  simp only [tsLe, Bool.or_eq_true, decide_eq_true_eq]
  omega

/-- Characterization of one eviction pass over a well-formed index `l`:
deleting the keys of the `n` timestamp-oldest entries leaves a
permutation of the remaining sorted entries, the victims and survivors
together repartition `l`, and every victim's timestamp is at most every
survivor's. -/
theorem evict_spec (l : List (String × CacheEntry)) (n : Nat)
    (hnd : (l.map Prod.fst).Nodup) :
    List.Perm (((l.mergeSort tsLe).take n).foldl (fun acc p => jsMapDelete acc p.1) l)
        ((l.mergeSort tsLe).drop n) ∧
    List.Perm l ((l.mergeSort tsLe).take n ++
        ((l.mergeSort tsLe).take n).foldl (fun acc p => jsMapDelete acc p.1) l) ∧
    (∀ a ∈ (l.mergeSort tsLe).take n,
      ∀ b ∈ ((l.mergeSort tsLe).take n).foldl (fun acc p => jsMapDelete acc p.1) l,
        a.2.ts ≤ b.2.ts) := by
  have hperm : List.Perm (l.mergeSort tsLe) l := List.mergeSort_perm l tsLe
  have hkeys : ((l.mergeSort tsLe).map Prod.fst).Nodup :=
    ((hperm.map Prod.fst).nodup_iff).mpr hnd
  have hsplit : (l.mergeSort tsLe).take n ++ (l.mergeSort tsLe).drop n = l.mergeSort tsLe :=
    List.take_append_drop n (l.mergeSort tsLe)
  have hpair : (l.mergeSort tsLe).Pairwise (fun a b => tsLe a b) :=
    List.sorted_mergeSort tsLe_trans tsLe_total l
  have hcross : ∀ a ∈ (l.mergeSort tsLe).take n, ∀ b ∈ (l.mergeSort tsLe).drop n,
      a.2.ts ≤ b.2.ts := by
    rw [← hsplit] at hpair
    have hx := (List.pairwise_append.mp hpair).2.2
    intro a ha b hb
    have h := hx a ha b hb
    simpa [tsLe] using h
  have hdisj : ∀ a ∈ (l.mergeSort tsLe).take n, ∀ b ∈ (l.mergeSort tsLe).drop n,
      a.1 ≠ b.1 := by
    rw [← hsplit] at hkeys
    rw [List.map_append, List.nodup_append] at hkeys
    intro a ha b hb he
    exact hkeys.2.2 (List.mem_map.mpr ⟨a, ha, rfl⟩) (List.mem_map.mpr ⟨b, hb, he.symm⟩)
  have hres : ((l.mergeSort tsLe).take n).foldl (fun acc p => jsMapDelete acc p.1) l =
      l.filter (fun q => q.1 ∉ ((l.mergeSort tsLe).take n).map Prod.fst) :=
    foldl_jsMapDelete _ l
  have hfperm : List.Perm (l.filter (fun q => q.1 ∉ ((l.mergeSort tsLe).take n).map Prod.fst))
      ((l.mergeSort tsLe).filter
        (fun q => q.1 ∉ ((l.mergeSort tsLe).take n).map Prod.fst)) :=
    (hperm.symm).filter _
  have htake : ((l.mergeSort tsLe).take n).filter
      (fun q => q.1 ∉ ((l.mergeSort tsLe).take n).map Prod.fst) = [] := by
    rw [List.filter_eq_nil_iff]
    intro p hp
    simp only [decide_eq_true_eq, Decidable.not_not]
    exact List.mem_map.mpr ⟨p, hp, rfl⟩
  have hdrop : ((l.mergeSort tsLe).drop n).filter
      (fun q => q.1 ∉ ((l.mergeSort tsLe).take n).map Prod.fst) =
      (l.mergeSort tsLe).drop n := by
    rw [List.filter_eq_self]
    intro b hb
    simp only [decide_eq_true_eq]
    intro hmem
    rcases List.mem_map.mp hmem with ⟨a, ha, hab⟩
    exact hdisj a ha b hb hab
  have hsf : (l.mergeSort tsLe).filter
      (fun q => q.1 ∉ ((l.mergeSort tsLe).take n).map Prod.fst) =
      (l.mergeSort tsLe).drop n :=
    filter_take_drop _ n _ htake hdrop
  have hresperm : List.Perm
      (((l.mergeSort tsLe).take n).foldl (fun acc p => jsMapDelete acc p.1) l)
      ((l.mergeSort tsLe).drop n) := by
    rw [hres]
    exact hfperm.trans (by rw [hsf])
  refine ⟨hresperm, ?_, ?_⟩
  · have h1 : List.Perm l ((l.mergeSort tsLe).take n ++ (l.mergeSort tsLe).drop n) := by
      rw [hsplit]
      exact hperm.symm
    exact h1.trans (List.Perm.append_left _ hresperm.symm)
  · intro a ha b hb
    exact hcross a ha b (hresperm.mem_iff.mp hb)

/-- The eviction batch size never exceeds the configured maximum. -/
theorem evictCount_le (m : Nat) : evictCount m ≤ m := by
  unfold evictCount
  omega

/-- With a positive maximum at least one entry is evicted per pass. -/
theorem evictCount_pos (m : Nat) (h : 1 ≤ m) : 1 ≤ evictCount m := by
  unfold evictCount
  omega

/-- `set` without overflow: insert/replace only, nothing unlinked. -/
theorem set_entries_of_le (c : AudioCache) (now : Nat) (url fp : String) (meta : CacheMeta)
    (h : ¬(jsMapSet c.entries (makeKeyFromUrl url) ⟨fp, basename fp, now, meta⟩).length >
      c.maxEntries) :
    c.set now url fp meta =
      (⟨c.maxEntries, jsMapSet c.entries (makeKeyFromUrl url) ⟨fp, basename fp, now, meta⟩⟩,
        []) := by
  simp only [AudioCache.set]
  rw [if_neg h]

/-- `set` with overflow: insert, sort by timestamp, delete the first
`evictCount` victims from the index, unlink their nonempty paths. -/
theorem set_entries_of_gt (c : AudioCache) (now : Nat) (url fp : String) (meta : CacheMeta)
    (h : (jsMapSet c.entries (makeKeyFromUrl url) ⟨fp, basename fp, now, meta⟩).length >
      c.maxEntries) :
    c.set now url fp meta =
      (⟨c.maxEntries,
        (((jsMapSet c.entries (makeKeyFromUrl url) ⟨fp, basename fp, now, meta⟩).mergeSort
            tsLe).take (evictCount c.maxEntries)).foldl (fun acc p => jsMapDelete acc p.1)
          (jsMapSet c.entries (makeKeyFromUrl url) ⟨fp, basename fp, now, meta⟩)⟩,
        ((((jsMapSet c.entries (makeKeyFromUrl url) ⟨fp, basename fp, now, meta⟩).mergeSort
            tsLe).take (evictCount c.maxEntries)).filter
          (fun p => ¬p.2.filepath.isEmpty)).map (fun p => p.2.filepath)) := by
  simp only [AudioCache.set]
  rw [if_pos h]

/-- After a `set` on a within-bounds, well-formed cache with a fresh
timestamp, the canonical key of the URL maps to the new entry — even
when the insertion triggers an eviction pass (the new entry has the
strictly greatest timestamp and survives). -/
theorem set_get_lookup (c : AudioCache) (now : Nat) (url fp : String) (meta : CacheMeta)
    (hwf : c.WF) (hsize : c.entries.length ≤ c.maxEntries)
    (hfresh : ∀ p ∈ c.entries, p.2.ts < now) :
    jsMapGet (c.set now url fp meta).1.entries (makeKeyFromUrl url) =
      some ⟨fp, basename fp, now, meta⟩ := by
  by_cases hgt : (jsMapSet c.entries (makeKeyFromUrl url)
      ⟨fp, basename fp, now, meta⟩).length > c.maxEntries
  · have hnd' : ((jsMapSet c.entries (makeKeyFromUrl url)
        ⟨fp, basename fp, now, meta⟩).map Prod.fst).Nodup :=
      jsMapSet_keys_nodup _ _ _ hwf
    have hkey : makeKeyFromUrl url ∉ c.entries.map Prod.fst := by
      intro hmem
      have := jsMapSet_length_of_mem c.entries (makeKeyFromUrl url)
        ⟨fp, basename fp, now, meta⟩ hmem
      omega
    have happ : jsMapSet c.entries (makeKeyFromUrl url) ⟨fp, basename fp, now, meta⟩ =
        c.entries ++ [(makeKeyFromUrl url, ⟨fp, basename fp, now, meta⟩)] :=
      jsMapSet_of_not_mem _ _ _ hkey
    have hspec := evict_spec (jsMapSet c.entries (makeKeyFromUrl url)
      ⟨fp, basename fp, now, meta⟩) (evictCount c.maxEntries) hnd'
    rw [set_entries_of_gt c now url fp meta hgt]
    have hlen' : (jsMapSet c.entries (makeKeyFromUrl url)
        ⟨fp, basename fp, now, meta⟩).length ≤ c.entries.length + 1 :=
      jsMapSet_length_le _ _ _
    have hreslen := hspec.2.1.length_eq
    rw [List.length_append, List.length_take, List.length_mergeSort] at hreslen
    have hne := evictCount_le c.maxEntries
    have hrespos : 0 < ((((jsMapSet c.entries (makeKeyFromUrl url)
        ⟨fp, basename fp, now, meta⟩).mergeSort tsLe).take (evictCount c.maxEntries)).foldl
          (fun acc p => jsMapDelete acc p.1)
          (jsMapSet c.entries (makeKeyFromUrl url) ⟨fp, basename fp, now, meta⟩)).length := by
      omega
    have hmemres : (makeKeyFromUrl url, (⟨fp, basename fp, now, meta⟩ : CacheEntry)) ∈
        (((jsMapSet c.entries (makeKeyFromUrl url) ⟨fp, basename fp, now, meta⟩).mergeSort
            tsLe).take (evictCount c.maxEntries)).foldl (fun acc p => jsMapDelete acc p.1)
          (jsMapSet c.entries (makeKeyFromUrl url) ⟨fp, basename fp, now, meta⟩) := by
      by_cases hvic : (makeKeyFromUrl url, (⟨fp, basename fp, now, meta⟩ : CacheEntry)) ∈
          ((jsMapSet c.entries (makeKeyFromUrl url) ⟨fp, basename fp, now, meta⟩).mergeSort
            tsLe).take (evictCount c.maxEntries)
      · exfalso
        obtain ⟨b, hb⟩ := List.exists_mem_of_length_pos hrespos
        have hts := hspec.2.2 _ hvic b hb
        have hbmem : b ∈ jsMapSet c.entries (makeKeyFromUrl url)
            ⟨fp, basename fp, now, meta⟩ := by
          have hbf := (foldl_jsMapDelete _ _) ▸ hb
          exact (List.mem_filter.mp hbf).1
        rw [happ] at hbmem
        rcases List.mem_append.mp hbmem with hbc | hbn
        · have := hfresh b hbc
          simp at hts
          omega
        · have hbeq : b = (makeKeyFromUrl url, (⟨fp, basename fp, now, meta⟩ : CacheEntry)) := by
            simpa using hbn
          rw [foldl_jsMapDelete] at hb
          have hnotin := (List.mem_filter.mp hb).2
          rw [hbeq] at hnotin
          simp only [decide_eq_true_eq] at hnotin
          exact hnotin (List.mem_map.mpr ⟨_, hvic, rfl⟩)
      · rw [foldl_jsMapDelete]
        rw [List.mem_filter]
        constructor
        · rw [happ]
          simp
        · simp only [decide_eq_true_eq]
          intro hmem
          rcases List.mem_map.mp hmem with ⟨a, ha, hak⟩
          have hasort : a ∈ (jsMapSet c.entries (makeKeyFromUrl url)
              ⟨fp, basename fp, now, meta⟩).mergeSort tsLe :=
            List.mem_of_mem_take ha
          have hamem : a ∈ jsMapSet c.entries (makeKeyFromUrl url)
              ⟨fp, basename fp, now, meta⟩ :=
            (List.mergeSort_perm _ tsLe).mem_iff.mp hasort
          have hauniq := mem_unique_of_nodup_keys _ (makeKeyFromUrl url)
            ⟨fp, basename fp, now, meta⟩ a hnd' (by rw [happ]; simp) hamem hak
          rw [hauniq] at ha
          exact hvic ha
    have hndres : ((((jsMapSet c.entries (makeKeyFromUrl url)
        ⟨fp, basename fp, now, meta⟩).mergeSort tsLe).take (evictCount c.maxEntries)).foldl
          (fun acc p => jsMapDelete acc p.1)
          (jsMapSet c.entries (makeKeyFromUrl url) ⟨fp, basename fp, now, meta⟩)).map
        Prod.fst |>.Nodup := by
      rw [foldl_jsMapDelete]
      exact ((List.filter_sublist _).map Prod.fst).nodup hnd'
    exact jsMapGet_some_of_mem _ _ _ hndres hmemres
  · rw [set_entries_of_le c now url fp meta hgt]
    exact jsMapGet_set_self _ _ _

/-- C4: on a well-formed cache whose entry count is within the
configured maximum and whose entries all predate `now`, `set(url, path,
meta)` followed by `get(url)` returns `path` (the path is truthy, i.e.
nonempty); and if the backing file at `path` is then deleted externally
(`path ∉ fsys`), `has(url)` returns `false` and removes the entry for
`url`'s canonical key from the index as a side effect. -/
theorem C4_cache_roundtrip (c : AudioCache) (now : Nat) (url fp : String) (meta : CacheMeta)
    (fsys : List String)
    (hwf : c.WF) (hsize : c.entries.length ≤ c.maxEntries)
    (hfresh : ∀ p ∈ c.entries, p.2.ts < now) (hfp : ¬fp.isEmpty) :
    (c.set now url fp meta).1.get url = some fp ∧
    (fp ∉ fsys →
      ((c.set now url fp meta).1.has fsys url).1 = false ∧
      jsMapGet ((c.set now url fp meta).1.has fsys url).2.entries
        (makeKeyFromUrl url) = none) := by
  have hget := set_get_lookup c now url fp meta hwf hsize hfresh
  constructor
  · simp only [AudioCache.get, hget]
    simp [hfp]
  · intro hmiss
    have hhas : (c.set now url fp meta).1.has fsys url =
        (false, ⟨(c.set now url fp meta).1.maxEntries,
          jsMapDelete (c.set now url fp meta).1.entries (makeKeyFromUrl url)⟩) := by
      simp [AudioCache.has, hget, hmiss]
    rw [hhas]
    exact ⟨rfl, jsMapGet_delete_self _ _⟩

/-- C4, witness: inserting into an empty one-slot cache and reading the
URL back returns the path; once the file is gone, `has` reports `false`
and prunes the entry. -/
theorem C4_witness :
    ((⟨1, []⟩ : AudioCache).set 5 "https://youtu.be/abc" "/tmp/a.m4a"
      ⟨none, none⟩).1.get "https://youtu.be/abc" = some "/tmp/a.m4a" ∧
    (((⟨1, []⟩ : AudioCache).set 5 "https://youtu.be/abc" "/tmp/a.m4a"
      ⟨none, none⟩).1.has [] "https://youtu.be/abc").1 = false ∧
    jsMapGet (((⟨1, []⟩ : AudioCache).set 5 "https://youtu.be/abc" "/tmp/a.m4a"
      ⟨none, none⟩).1.has [] "https://youtu.be/abc").2.entries
      (makeKeyFromUrl "https://youtu.be/abc") = none := by
  have h := C4_cache_roundtrip ⟨1, []⟩ 5 "https://youtu.be/abc" "/tmp/a.m4a"
    ⟨none, none⟩ [] (by simp [AudioCache.WF]) (by simp) (by simp) (by decide)
  exact ⟨h.1, (h.2 (by simp)).1, (h.2 (by simp)).2⟩

/-- C5: on a well-formed cache within its positive configured maximum,
`set` keeps the entry count at most the maximum; and whenever the
insertion pushes the count past the maximum, exactly
`⌈maxEntries * 0.2⌉` entries are removed from the index, all of them
timestamp-least among the post-insertion entries, with a best-effort
file deletion attempted for exactly the removed entries that have a
truthy filepath. -/
theorem C5_bounded_eviction (c : AudioCache) (now : Nat) (url fp : String) (meta : CacheMeta)
    (hwf : c.WF) (hsize : c.entries.length ≤ c.maxEntries) (hmax : 1 ≤ c.maxEntries) :
    ((c.set now url fp meta).1.entries.length ≤ c.maxEntries) ∧
    ((jsMapSet c.entries (makeKeyFromUrl url) ⟨fp, basename fp, now, meta⟩).length >
        c.maxEntries →
      ∃ removed,
        List.Perm (jsMapSet c.entries (makeKeyFromUrl url) ⟨fp, basename fp, now, meta⟩)
          (removed ++ (c.set now url fp meta).1.entries) ∧
        removed.length = evictCount c.maxEntries ∧
        (∀ a ∈ removed, ∀ b ∈ (c.set now url fp meta).1.entries, a.2.ts ≤ b.2.ts) ∧
        (c.set now url fp meta).2 =
          (removed.filter (fun p => ¬p.2.filepath.isEmpty)).map (fun p => p.2.filepath)) := by
  by_cases hgt : (jsMapSet c.entries (makeKeyFromUrl url)
      ⟨fp, basename fp, now, meta⟩).length > c.maxEntries
  · have hnd' : ((jsMapSet c.entries (makeKeyFromUrl url)
        ⟨fp, basename fp, now, meta⟩).map Prod.fst).Nodup :=
      jsMapSet_keys_nodup _ _ _ hwf
    have hspec := evict_spec (jsMapSet c.entries (makeKeyFromUrl url)
      ⟨fp, basename fp, now, meta⟩) (evictCount c.maxEntries) hnd'
    have hset := set_entries_of_gt c now url fp meta hgt
    have hlen := hspec.2.1.length_eq
    rw [List.length_append, List.length_take, List.length_mergeSort] at hlen
    have h1 := jsMapSet_length_le c.entries (makeKeyFromUrl url) ⟨fp, basename fp, now, meta⟩
    have h2 := evictCount_le c.maxEntries
    have h3 := evictCount_pos c.maxEntries hmax
    constructor
    · rw [hset]
      simp only
      omega
    · intro _
      refine ⟨((jsMapSet c.entries (makeKeyFromUrl url)
          ⟨fp, basename fp, now, meta⟩).mergeSort tsLe).take (evictCount c.maxEntries),
        ?_, ?_, ?_, ?_⟩
      · rw [hset]
        exact hspec.2.1
      · rw [List.length_take, List.length_mergeSort]
        omega
      · rw [hset]
        exact hspec.2.2
      · rw [hset]
  · rw [set_entries_of_le c now url fp meta hgt]
    constructor
    · simp only
      omega
    · intro h
      exact absurd h hgt

/-- C5, witness: a one-slot cache holding one old entry receives a new
URL; the count stays at 1 and one oldest entry is evicted with its file
deletion attempted. -/
theorem C5_witness :
    (((⟨1, [("k0", ⟨"/tmp/old.m4a", "old.m4a", 1, ⟨none, none⟩⟩)]⟩ : AudioCache).set 5
      "https://youtu.be/zzz" "/tmp/new.m4a" ⟨none, none⟩).1.entries.length ≤ 1) ∧
    (∃ removed,
      List.Perm (jsMapSet ([("k0", ⟨"/tmp/old.m4a", "old.m4a", 1, ⟨none, none⟩⟩)])
          (makeKeyFromUrl "https://youtu.be/zzz")
          ⟨"/tmp/new.m4a", basename "/tmp/new.m4a", 5, ⟨none, none⟩⟩)
        (removed ++ ((⟨1, [("k0", ⟨"/tmp/old.m4a", "old.m4a", 1, ⟨none, none⟩⟩)]⟩ :
          AudioCache).set 5 "https://youtu.be/zzz" "/tmp/new.m4a" ⟨none, none⟩).1.entries) ∧
      removed.length = evictCount 1 ∧
      (∀ a ∈ removed,
        ∀ b ∈ ((⟨1, [("k0", ⟨"/tmp/old.m4a", "old.m4a", 1, ⟨none, none⟩⟩)]⟩ :
          AudioCache).set 5 "https://youtu.be/zzz" "/tmp/new.m4a" ⟨none, none⟩).1.entries,
          a.2.ts ≤ b.2.ts) ∧
      ((⟨1, [("k0", ⟨"/tmp/old.m4a", "old.m4a", 1, ⟨none, none⟩⟩)]⟩ : AudioCache).set 5
          "https://youtu.be/zzz" "/tmp/new.m4a" ⟨none, none⟩).2 =
        (removed.filter (fun p => ¬p.2.filepath.isEmpty)).map (fun p => p.2.filepath)) := by
  have h := C5_bounded_eviction ⟨1, [("k0", ⟨"/tmp/old.m4a", "old.m4a", 1, ⟨none, none⟩⟩)]⟩
    5 "https://youtu.be/zzz" "/tmp/new.m4a" ⟨none, none⟩
    (by simp [AudioCache.WF]) (by simp) (by simp)
  exact ⟨h.1, h.2 (by decide)⟩

/-- C10: `get` performs no file-existence check and no pruning — with an
index entry whose backing file has been deleted externally, `get` still
returns the recorded (stale) filepath, while `has` on the same state
returns `false` and removes the entry. -/
theorem C10_get_stale (c : AudioCache) (fsys : List String) (url : String) (e : CacheEntry)
    (hlook : jsMapGet c.entries (makeKeyFromUrl url) = some e)
    (hfp : ¬e.filepath.isEmpty) (hmiss : e.filepath ∉ fsys) :
    c.get url = some e.filepath ∧
    (c.has fsys url).1 = false ∧
    jsMapGet (c.has fsys url).2.entries (makeKeyFromUrl url) = none := by
  refine ⟨?_, ?_, ?_⟩
  · simp [AudioCache.get, hlook, hfp]
  · simp [AudioCache.has, hlook, hmiss]
  · simp only [AudioCache.has, hlook]
    rw [if_neg hmiss]
    exact jsMapGet_delete_self _ _

/-- C10, witness: a cache with one entry whose file is gone still serves
the stale path from `get`, while `has` misses and prunes it. -/
theorem C10_witness :
    (⟨10, [("k", ⟨"/tmp/gone.m4a", "gone.m4a", 1, ⟨none, none⟩⟩)]⟩ : AudioCache).get "k" =
      some "/tmp/gone.m4a" ∧
    ((⟨10, [("k", ⟨"/tmp/gone.m4a", "gone.m4a", 1, ⟨none, none⟩⟩)]⟩ : AudioCache).has
      [] "k").1 = false ∧
    jsMapGet ((⟨10, [("k", ⟨"/tmp/gone.m4a", "gone.m4a", 1, ⟨none, none⟩⟩)]⟩ :
      AudioCache).has [] "k").2.entries (makeKeyFromUrl "k") = none := by
  have h := C10_get_stale ⟨10, [("k", ⟨"/tmp/gone.m4a", "gone.m4a", 1, ⟨none, none⟩⟩)]⟩
    [] "k" ⟨"/tmp/gone.m4a", "gone.m4a", 1, ⟨none, none⟩⟩ (by decide) (by decide) (by simp)
  exact h

/-- C8: canonical key derivation — a `youtube.com/watch?v=ID` URL with
decorative extra query parameters and the corresponding `youtu.be/ID`
short link map to the same key (the bare ID); a reference that fails to
parse as a URL, or parses to a host not containing `"youtu"`, maps to
itself (the raw reference); and two recognized references carrying
distinct `v` media identifiers map to distinct keys. -/
theorem C8_canonical_keys :
    makeKeyFromUrl "https://www.youtube.com/watch?v=dQw4w9WgXcQ&t=42s&list=PL123" =
      "dQw4w9WgXcQ" ∧
    makeKeyFromUrl "https://youtu.be/dQw4w9WgXcQ" = "dQw4w9WgXcQ" ∧
    (∀ url : String, parseUrl url = none → makeKeyFromUrl url = url) ∧
    (∀ (url : String) (u : JsUrl), parseUrl url = some u →
      hasSubstr "youtu".toList u.hostname = false → makeKeyFromUrl url = url) ∧
    (∀ (url1 url2 : String) (u1 u2 : JsUrl) (v1 v2 : List Char),
      parseUrl url1 = some u1 → parseUrl url2 = some u2 →
      hasSubstr "youtu".toList u1.hostname = true →
      hasSubstr "youtu".toList u2.hostname = true →
      lookupParam "v".toList u1.searchParams = some v1 →
      lookupParam "v".toList u2.searchParams = some v2 →
      v1 ≠ v2 →
      makeKeyFromUrl url1 ≠ makeKeyFromUrl url2) := by
  refine ⟨by decide, by decide, ?_, ?_, ?_⟩
  · intro url h
    simp [makeKeyFromUrl, h]
  · intro url u hp hh
    have hh' : hasSubstr ['y', 'o', 'u', 't', 'u'] u.hostname = false := hh
    simp [makeKeyFromUrl, hp, hh']
  · intro url1 url2 u1 u2 v1 v2 hp1 hp2 hh1 hh2 hv1 hv2 hne
    have hh1' : hasSubstr ['y', 'o', 'u', 't', 'u'] u1.hostname = true := hh1
    have hh2' : hasSubstr ['y', 'o', 'u', 't', 'u'] u2.hostname = true := hh2
    have hv1' : lookupParam ['v'] u1.searchParams = some v1 := hv1
    have hv2' : lookupParam ['v'] u2.searchParams = some v2 := hv2
    have h1 : makeKeyFromUrl url1 = ⟨v1⟩ := by
      simp [makeKeyFromUrl, hp1, hh1', hv1']
    have h2 : makeKeyFromUrl url2 = ⟨v2⟩ := by
      simp [makeKeyFromUrl, hp2, hh2', hv2']
    rw [h1, h2]
    intro hc
    apply hne
    injection hc

/-- C8, witness: a non-URL string and a non-YouTube URL key to
themselves, and two watch URLs with different IDs key differently. -/
theorem C8_witness :
    makeKeyFromUrl "not a url" = "not a url" ∧
    makeKeyFromUrl "https://example.com/watch?v=x" = "https://example.com/watch?v=x" ∧
    makeKeyFromUrl "https://www.youtube.com/watch?v=aaa" ≠
      makeKeyFromUrl "https://www.youtube.com/watch?v=bbb" := by
  refine ⟨?_, ?_, ?_⟩
  · exact C8_canonical_keys.2.2.1 "not a url" (by decide)
  · exact C8_canonical_keys.2.2.2.1 "https://example.com/watch?v=x"
      ⟨"example.com".toList, "/watch".toList, [("v".toList, "x".toList)]⟩
      (by decide) (by decide)
  · exact C8_canonical_keys.2.2.2.2 _ _
      ⟨"www.youtube.com".toList, "/watch".toList, [("v".toList, "aaa".toList)]⟩
      ⟨"www.youtube.com".toList, "/watch".toList, [("v".toList, "bbb".toList)]⟩
      "aaa".toList "bbb".toList (by decide) (by decide) (by decide) (by decide)
      (by decide) (by decide) (by decide)

end Musicbot
